import Mathlib

/-!
Shallow embedding of `src/bf-decoder.py`: a Brainfuck interpreter consisting of
a sanitizer (`sanitize`, line 24), a bracket-pair precomputation
(`build_bracket_map`, line 28) and the dispatch loop of
`BrainfuckInterpreter.run` (lines 53-100).

Modelling conventions:
* Python machine integers are `Nat`/`Int`; Python `%` on a positive modulus is
  nonnegative, matching Lean's `Int.emod` / `Nat.mod` on nonnegative values.
* The Python `dict` used for the bracket map is a function `Nat → Option Nat`;
  `dict` assignment is `mapInsert` (later insertion shadows earlier ones).
* The `while` loop of `run` terminates because `steps` is incremented on every
  iteration and the loop raises once `steps >= max_steps`; we encode the loop
  with the remaining step budget `fuel = max_steps - steps` (clamped to 0 for
  nonpositive `max_steps`, in which case the very first check raises) as a
  structurally decreasing argument.  `fuel = 0` with an instruction pending is
  exactly the Python `steps >= self.max_steps` test firing.
* `self.tape` / `self.ptr` live on the interpreter object (`__init__`,
  lines 46-51) and are threaded through `run`, which returns the updated
  object next to the produced output; raising an exception is `Except.error`,
  which discards both the mutated object and the accumulated output, just as
  the Python caller never sees them.
-/

/-- `BF_CHARS` (line 22): the eight Brainfuck command characters. -/
def isBF (c : Char) : Bool :=
  c = '+' || c = '-' || c = '<' || c = '>' || c = '[' || c = ']' || c = ',' || c = '.'

/-- `sanitize` (lines 24-26): keep only Brainfuck tokens, in order. -/
def sanitize (program : String) : String :=
  ⟨program.data.filter isBF⟩

/-- The error taxonomy of the script: `ValueError` in `__init__` (line 48),
the two `SyntaxError`s of `build_bracket_map` (lines 37, 42) with the position
they report, and the `RuntimeError` for the step limit (line 65). -/
inductive BfError where
  | configError : BfError
  | unmatchedClose (pos : Nat) : BfError
  | unmatchedOpen (pos : Nat) : BfError
  | stepLimitExceeded : BfError
deriving DecidableEq, Repr

/-- The bracket map: a Python `dict` from position to position, as a function. -/
abbrev BMap := Nat → Option Nat

/-- `dict` assignment `m[k] = v`. -/
def mapInsert (m : BMap) (k v : Nat) : BMap :=
  fun x => if x = k then some v else m x

/-- The scan loop of `build_bracket_map` (lines 32-42): `pos` is the index of
the head of the remaining character list, `stack` holds the positions of
not-yet-closed `[` (head = Python `stack[-1]`). -/
def bmLoop : List Char → Nat → List Nat → BMap → Except BfError BMap
  | [], _, [], m => .ok m
  | [], _, p :: _, _ => .error (.unmatchedOpen p)
  | c :: rest, pos, stack, m =>
    if c = '[' then
      bmLoop rest (pos + 1) (pos :: stack) m
    else if c = ']' then
      match stack with
      | [] => .error (.unmatchedClose pos)
      | start :: tl =>
        bmLoop rest (pos + 1) tl (mapInsert (mapInsert m start pos) pos start)
    else
      bmLoop rest (pos + 1) stack m

/-- `build_bracket_map` (lines 28-43). -/
def buildBracketMap (program : String) : Except BfError BMap :=
  bmLoop program.data 0 [] (fun _ => none)

/-- The interpreter object: `self.tape`, `self.ptr`, `self.max_steps`
(lines 49-51). -/
structure Interp where
  tape : List Nat
  ptr : Int
  maxSteps : Int
deriving DecidableEq, Repr

/-- `BrainfuckInterpreter.__init__` (lines 46-51): reject `tape_size <= 0`,
otherwise allocate a zeroed tape and set the pointer to 0.  `max_steps` is
stored unchecked. -/
def mkInterpreter (tapeSize maxSteps : Int) : Except BfError Interp :=
  if tapeSize ≤ 0 then .error .configError
  else .ok ⟨List.replicate tapeSize.toNat 0, 0, maxSteps⟩

/-- The mutable state of one `run` call: the tape and data pointer (from the
object), the instruction pointer `ip`, the input index `in_idx` and the output
accumulator `out_chars`. -/
structure St where
  tape : List Nat
  ptr : Int
  ip : Nat
  inIdx : Nat
  out : List Char
deriving DecidableEq, Repr

/-- `self.tape[self.ptr]`; the loop keeps `0 ≤ ptr < tape.length`, so the
default is never consulted on reachable states. -/
def tapeRead (st : St) : Nat :=
  st.tape.getD st.ptr.toNat 0

/-- `self.tape[self.ptr] = v`. -/
def tapeWrite (st : St) (v : Nat) : List Nat :=
  st.tape.set st.ptr.toNat v

/-- One iteration of the dispatch `while` body after the step-limit check
(lines 71-98).  The final `ip += 1` of line 98 runs unconditionally, also
after a bracket set `ip` on line 94/97.  `(v - 1) % 256` of line 83 is written
`(v + 255) % 256`, which agrees with Python's nonnegative `%` for every
`v : Nat`.  A bracket position missing from the map cannot occur after a
successful `build_bracket_map`; the model then keeps `ip` (Python would raise
`KeyError`). -/
def execStep (prog : List Char) (bm : BMap) (inbuf : List Char) (st : St) : St :=
  let cmd := prog.getD st.ip ' '
  if cmd = '>' then
    let p := st.ptr + 1
    { st with ptr := if p ≥ (st.tape.length : Int) then 0 else p, ip := st.ip + 1 }
  else if cmd = '<' then
    let p := st.ptr - 1
    { st with ptr := if p < 0 then (st.tape.length : Int) - 1 else p, ip := st.ip + 1 }
  else if cmd = '+' then
    { st with tape := tapeWrite st ((tapeRead st + 1) % 256), ip := st.ip + 1 }
  else if cmd = '-' then
    { st with tape := tapeWrite st ((tapeRead st + 255) % 256), ip := st.ip + 1 }
  else if cmd = '.' then
    { st with out := st.out ++ [Char.ofNat (tapeRead st)], ip := st.ip + 1 }
  else if cmd = ',' then
    if st.inIdx < inbuf.length then
      { st with tape := tapeWrite st (inbuf.getD st.inIdx ' ').toNat,
                inIdx := st.inIdx + 1, ip := st.ip + 1 }
    else
      { st with tape := tapeWrite st 0, ip := st.ip + 1 }
  else if cmd = '[' then
    if tapeRead st = 0 then
      { st with ip := (bm st.ip).getD st.ip + 1 }
    else
      { st with ip := st.ip + 1 }
  else if cmd = ']' then
    if tapeRead st ≠ 0 then
      { st with ip := (bm st.ip).getD st.ip + 1 }
    else
      { st with ip := st.ip + 1 }
  else
    { st with ip := st.ip + 1 }

/-- The `while ip < len(program)` loop (lines 63-98).  `fuel` is the remaining
step budget `max_steps - steps`; `fuel = 0` with `ip` still inside the program
is the `steps >= self.max_steps` check of line 64 firing. -/
def runLoop (prog : List Char) (bm : BMap) (inbuf : List Char) :
    Nat → St → Except BfError St
  | 0, st =>
    if st.ip < prog.length then .error .stepLimitExceeded else .ok st
  | fuel + 1, st =>
    if st.ip < prog.length then
      runLoop prog bm inbuf fuel (execStep prog bm inbuf st)
    else
      .ok st

/-- `BrainfuckInterpreter.run` (lines 53-100): sanitize, build the bracket
map, run the dispatch loop from the object's current tape and pointer, and on
success return the mutated object together with the joined output. -/
def run (self : Interp) (program inbuf : String) : Except BfError (Interp × String) :=
  match buildBracketMap (sanitize program) with
  | .error e => .error e
  | .ok bm =>
    match runLoop (sanitize program).data bm inbuf.data self.maxSteps.toNat
        ⟨self.tape, self.ptr, 0, 0, []⟩ with
    | .error e => .error e
    | .ok st => .ok (⟨st.tape, st.ptr, self.maxSteps⟩, ⟨st.out⟩)

/-- Iterated dispatch steps, used to reach intermediate states of concrete
executions. -/
def stepsN (prog : List Char) (bm : BMap) (inbuf : List Char) : Nat → St → St
  | 0, st => st
  | n + 1, st => stepsN prog bm inbuf n (execStep prog bm inbuf st)

/-- The bracket map of a program whose `buildBracketMap` succeeds (empty map
otherwise); convenient for concrete executions. -/
def bmOf (program : String) : BMap :=
  match buildBracketMap program with
  | .ok m => m
  | .error _ => fun _ => none

/-- An all-nothing bracket map, for programs without brackets. -/
def bm0 : BMap := fun _ => none

/-- The sanitized program `"++[-]"`, as a character list. -/
def c1prog : List Char := (sanitize "++[-]").data

/-- The bracket map of `"++[-]"` (positions 2 and 4 are paired). -/
def c1bm : BMap := bmOf "++[-]"

/-- The state of a run of `"++[-]"` on a 1-cell tape right after 4 dispatch
steps: the instruction pointer sits on the `]` at position 4 and the current
cell holds 1. -/
def c1st4 : St := stepsN c1prog c1bm [] 4 ⟨[0], 0, 0, 0, []⟩

/-- A freshly constructed 1-cell interpreter with `max_steps = 100`. -/
def i100 : Interp := ⟨List.replicate 1 0, 0, 100⟩

/-- The interpreter object `i100` after running `"+"`: the single cell now
holds 1 and persists on the object. -/
def i100' : Interp := ⟨[1], 0, 100⟩

/-- A 1-cell interpreter with `max_steps = 0`. -/
def iz : Interp := ⟨[0], 0, 0⟩

/-- A 1-cell interpreter with `max_steps = 1000`. -/
def i1000 : Interp := ⟨[0], 0, 1000⟩

/-- A 1-cell interpreter with `max_steps = 10`. -/
def c6i : Interp := ⟨[0], 0, 10⟩

/-- The bracket map produced for `"[]"`. -/
def c5map : BMap := mapInsert (mapInsert (fun _ => none) 0 1) 1 0

/-- C7 counterexample: the claimed sanitization result. `<` and `-` are
Brainfuck commands, so `"<!--"` does not vanish. -/
theorem c7_counterexample : sanitize "<!--++>-->" ≠ "++>-->" := by decide

/-- C7 (amended): the Sanitizer applied to `"<!--++>-->"` yields
`"<--++>-->"`: the `<` and the two `-` of the leading `"<!--"` are themselves
command characters and survive, only `!` is dropped. -/
theorem c7_sanitize_example : sanitize "<!--++>-->" = "<--++>-->" := by decide

/-- C4: the Bracket Matcher fails exactly as specified — a `]` with an empty
stack fails immediately with `unmatchedClose` at the current position, no
matter what characters follow; an exhausted scan with a non-empty stack fails
with `unmatchedOpen` at the stack's top; and `"[[]"` fails with
`unmatchedOpen` at position 0. -/
theorem c4_bracket_errors :
    (∀ (rest : List Char) (pos : Nat) (m : BMap),
      bmLoop (']' :: rest) pos [] m = .error (.unmatchedClose pos))
    ∧ (∀ (pos p : Nat) (s : List Nat) (m : BMap),
      bmLoop [] pos (p :: s) m = .error (.unmatchedOpen p))
    ∧ buildBracketMap "[[]" = .error (.unmatchedOpen 0) :=
  ⟨fun _ _ _ => rfl, fun _ _ _ _ => rfl, rfl⟩

/-- C1 counterexample: in the run of `"++[-]"`, the `]` at position 4 executes
with the current cell nonzero and the bracket map sending 4 to 2, yet the
next instruction executed is at position 3 (the `-` after the `[`), not the
`[` at position 2: line 98 of the source adds 1 to the instruction pointer
even after line 97 set it. -/
theorem c1_counterexample :
    c1prog.getD c1st4.ip ' ' = ']' ∧ tapeRead c1st4 ≠ 0 ∧ c1bm c1st4.ip = some 2
    ∧ (execStep c1prog c1bm [] c1st4).ip = 3 ∧ (3 : Nat) ≠ 2 := by
  refine ⟨rfl, by decide, rfl, rfl, by decide⟩

/-- C1 (amended): the instruction pointer advances by one after every
instruction, including the ones that set it — so when `]` executes at
position q with the current cell nonzero and `BracketMap[q] = p`, the next
instruction executed is at `p + 1`, the first instruction of the loop body,
not the `[` at p itself (and symmetrically a taken `[` jump lands one past
the matching `]`; a not-taken `]` falls through to `q + 1`). -/
theorem c1_advance_after_jump :
    (∀ (prog : List Char) (bm : BMap) (inbuf : List Char) (st : St) (p : Nat),
      prog.getD st.ip ' ' = ']' → tapeRead st ≠ 0 → bm st.ip = some p →
      (execStep prog bm inbuf st).ip = p + 1)
    ∧ (∀ (prog : List Char) (bm : BMap) (inbuf : List Char) (st : St) (p : Nat),
      prog.getD st.ip ' ' = '[' → tapeRead st = 0 → bm st.ip = some p →
      (execStep prog bm inbuf st).ip = p + 1)
    ∧ (∀ (prog : List Char) (bm : BMap) (inbuf : List Char) (st : St),
      prog.getD st.ip ' ' = ']' → tapeRead st = 0 →
      (execStep prog bm inbuf st).ip = st.ip + 1) := by
  refine ⟨?_, ?_, ?_⟩
  · intro prog bm inbuf st p hc hnz hbm
    simp only [execStep]
    rw [hc]
    simp [hnz, hbm]
  · intro prog bm inbuf st p hc hz hbm
    simp only [execStep]
    rw [hc]
    simp [hz, hbm]
  · intro prog bm inbuf st hc hz
    simp only [execStep]
    rw [hc]
    simp [hz]

/-- C1 witness: the amended jump rule applied to the concrete `]` step of the
`"++[-]"` run. -/
theorem c1_advance_after_jump_witness :
    (execStep c1prog c1bm [] c1st4).ip = 2 + 1 :=
  c1_advance_after_jump.1 c1prog c1bm [] c1st4 2 rfl (by decide) rfl

/-- C3 counterexample: on one interpreter instance, running `"+"` leaves the
cell value 1 on the object, and a second `run` of `"."` on the same instance
outputs character code 1, while a freshly constructed interpreter running
`"."` outputs character code 0 — the tape persists across runs. -/
theorem c3_counterexample :
    mkInterpreter 1 100 = .ok i100
    ∧ run i100 "+" "" = .ok (i100', "")
    ∧ run i100' "." "" = .ok (i100', String.mk [Char.ofNat 1])
    ∧ run i100 "." "" = .ok (i100, String.mk [Char.ofNat 0])
    ∧ String.mk [Char.ofNat 1] ≠ String.mk [Char.ofNat 0] :=
  ⟨rfl, rfl, rfl, rfl, by decide⟩

/-- C10 counterexample: with `max_steps = 0`, running the program `"]"`
(whose sanitized form is non-empty) does not fail with the step limit: the
bracket map is built first and its `unmatchedClose` error propagates. -/
theorem c10_counterexample :
    mkInterpreter 1 0 = .ok iz
    ∧ sanitize "]" ≠ ""
    ∧ run iz "]" "" = .error (.unmatchedClose 0)
    ∧ BfError.unmatchedClose 0 ≠ BfError.stepLimitExceeded :=
  ⟨rfl, by decide, rfl, by decide⟩

/-- C6 counterexample: the `,` instruction stores the raw character code
(line 88), so running `","` on input consisting of the character U+0100
(code 256) leaves 256 in a tape cell, outside `[0, 256)`. -/
theorem c6_counterexample :
    run c6i "," (String.mk [Char.ofNat 256]) = .ok (⟨[256], 0, 10⟩, "")
    ∧ ¬ (256 : Nat) < 256 :=
  ⟨rfl, by decide⟩

set_option maxHeartbeats 8000000 in
set_option maxRecDepth 100000 in
/-- C2: the step counter is checked against `max_steps` before each
instruction — with the step budget exhausted and an instruction still
pending, the loop fails with `stepLimitExceeded` (and, the result being an
error, no accumulated output is returned); a successful loop ends only with
the instruction pointer at or past the end of the program, and its full
output is returned; concretely, `"+[]"` with `max_steps = 1000` fails with
`stepLimitExceeded`. -/
theorem c2_step_limit :
    (∀ (prog : List Char) (bm : BMap) (inbuf : List Char) (st : St),
      st.ip < prog.length →
      runLoop prog bm inbuf 0 st = .error .stepLimitExceeded)
    ∧ (∀ (prog : List Char) (bm : BMap) (inbuf : List Char) (fuel : Nat) (st st' : St),
      runLoop prog bm inbuf fuel st = .ok st' → prog.length ≤ st'.ip)
    ∧ run i1000 "+[]" "" = .error .stepLimitExceeded := by
  refine ⟨?_, ?_, rfl⟩
  · intro prog bm inbuf st h
    simp [runLoop, h]
  · intro prog bm inbuf fuel
    induction fuel with
    | zero =>
      intro st st' h
      simp only [runLoop] at h
      split at h
      · exact absurd h (by simp)
      · cases h
        omega
    | succ n ih =>
      intro st st' h
      simp only [runLoop] at h
      split at h
      · exact ih _ _ h
      · cases h
        omega

/-- C2 witness: the step-limit check applied to the one-instruction program
`"+"` with no remaining budget, and the end-of-program guarantee applied to a
completed run of the same program. -/
theorem c2_step_limit_witness :
    runLoop ['+'] bm0 [] 0 ⟨[0], 0, 0, 0, []⟩ = .error .stepLimitExceeded
    ∧ (['+'] : List Char).length ≤ (⟨[1], 0, 1, 0, []⟩ : St).ip :=
  ⟨c2_step_limit.1 ['+'] bm0 [] ⟨[0], 0, 0, 0, []⟩ (by decide),
   c2_step_limit.2.1 ['+'] bm0 [] 1 ⟨[0], 0, 0, 0, []⟩ ⟨[1], 0, 1, 0, []⟩ rfl⟩

/-- Helper: a dispatch step never changes the tape's length (writes go through
`List.set`). -/
theorem execStep_tape_length (prog : List Char) (bm : BMap) (inbuf : List Char) (st : St) :
    (execStep prog bm inbuf st).tape.length = st.tape.length := by
  simp only [execStep]
  split_ifs <;> simp [tapeWrite]

/-- Helper: any property preserved by `execStep` holds for the final state of
a successful `runLoop`. -/
theorem runLoop_ok_inv (prog : List Char) (bm : BMap) (inbuf : List Char)
    (P : St → Prop) (hstep : ∀ st, P st → P (execStep prog bm inbuf st)) :
    ∀ (fuel : Nat) (st st' : St), P st → runLoop prog bm inbuf fuel st = .ok st' → P st' := by
  intro fuel
  induction fuel with
  | zero =>
    intro st st' hP h
    simp only [runLoop] at h
    split at h
    · exact absurd h (by simp)
    · cases h
      exact hP
  | succ n ih =>
    intro st st' hP h
    simp only [runLoop] at h
    split at h
    · exact ih _ _ (hstep st hP) h
    · cases h
      exact hP

/-- Helper: values of a tape after a write are old values or the written one. -/
theorem tapeWrite_bound {st : St} {w v : Nat} (hv : v ∈ tapeWrite st w)
    (ht : ∀ x ∈ st.tape, x < 256) (hw : w < 256) : v < 256 := by
  rcases List.mem_or_eq_of_mem_set hv with h | h
  · exact ht v h
  · omega

/-- C3 (amended): Tape and Cursor are created at interpreter construction
(tape all zeros, cursor 0) and persist across runs on the same instance —
`run` returns the mutated object, whose `max_steps` is unchanged, and a
second run starts from the tape and cursor the first one left behind, as the
concrete pair of runs of `"+"` then `"."` shows (the second outputs character
code 1, not 0). -/
theorem c3_state_persists :
    (∀ (tapeSize maxSteps : Int) (self : Interp),
      mkInterpreter tapeSize maxSteps = .ok self →
      self.tape = List.replicate tapeSize.toNat 0 ∧ self.ptr = 0 ∧ self.maxSteps = maxSteps)
    ∧ (∀ (self : Interp) (program inbuf : String) (self' : Interp) (outp : String),
      run self program inbuf = .ok (self', outp) → self'.maxSteps = self.maxSteps)
    ∧ (run i100 "+" "" = .ok (i100', "") ∧ i100'.tape = [1]
       ∧ run i100' "." "" = .ok (i100', String.mk [Char.ofNat 1])) := by
  refine ⟨?_, ?_, rfl, rfl, rfl⟩
  · intro tapeSize maxSteps self h
    simp only [mkInterpreter] at h
    split at h
    · exact absurd h (by simp)
    · cases h
      exact ⟨rfl, rfl, rfl⟩
  · intro self program inbuf self' outp h
    simp only [run] at h
    split at h
    · exact absurd h (by simp)
    · split at h
      · exact absurd h (by simp)
      · cases h
        rfl

/-- C3 witness: construction zeroing applied to the 1-cell interpreter, and
`max_steps` preservation applied to its run of `"+"`. -/
theorem c3_state_persists_witness :
    (i100.tape = List.replicate (1 : Int).toNat 0 ∧ i100.ptr = 0 ∧ i100.maxSteps = 100)
    ∧ i100'.maxSteps = i100.maxSteps :=
  ⟨c3_state_persists.1 1 100 i100 rfl, c3_state_persists.2.1 i100 "+" "" i100' "" rfl⟩

/-- C9: `sanitize` is exactly the subsequence of command characters — its
result is a sublist of the input, every surviving character is one of the
eight commands, every command character of the input survives (same count),
and sanitizing is idempotent. -/
theorem c9_sanitize_subsequence (s : String) :
    (sanitize s).data.Sublist s.data
    ∧ (∀ c ∈ (sanitize s).data, isBF c = true)
    ∧ (∀ c : Char, isBF c = true → (sanitize s).data.count c = s.data.count c)
    ∧ sanitize (sanitize s) = sanitize s := by
  have hdata : (sanitize s).data = s.data.filter isBF := rfl
  refine ⟨?_, ?_, ?_, ?_⟩
  · rw [hdata]
    exact List.filter_sublist _
  · intro c hc
    rw [hdata] at hc
    exact (List.mem_filter.mp hc).2
  · intro c hcf
    rw [hdata]
    exact List.count_filter hcf
  · show String.mk ((sanitize s).data.filter isBF) = sanitize s
    rw [hdata, List.filter_filter]
    apply congrArg String.mk
    apply List.filter_congr
    intro a _
    exact Bool.and_self _

/-- C9 witness: the characterization applied to the concrete text `"a+b."`. -/
theorem c9_sanitize_subsequence_witness :
    sanitize (sanitize "a+b.") = sanitize "a+b."
    ∧ (sanitize "a+b.").data.count '+' = "a+b.".data.count '+' :=
  ⟨(c9_sanitize_subsequence "a+b.").2.2.2,
   (c9_sanitize_subsequence "a+b.").2.2.1 '+' (by decide)⟩

set_option maxHeartbeats 3200000 in
/-- C8: the Cursor invariant — if the tape is non-empty and the cursor lies in
`[0, tape_size)` then it still does after any dispatch step; a successful run
started inside the range ends inside the range; with `tape_size = 1` every
dispatch step leaves the cursor at 0; and the movement is the claimed
circular wraparound for every tape size: `>` at `tape_size - 1` lands at 0,
`<` at 0 lands at `tape_size - 1`, while away from the edges `>` adds one and
`<` subtracts one. -/
theorem c8_cursor_in_range :
    (∀ (prog : List Char) (bm : BMap) (inbuf : List Char) (st : St),
      1 ≤ st.tape.length → 0 ≤ st.ptr → st.ptr < (st.tape.length : Int) →
      0 ≤ (execStep prog bm inbuf st).ptr ∧
        (execStep prog bm inbuf st).ptr < ((execStep prog bm inbuf st).tape.length : Int))
    ∧ (∀ (self : Interp) (program inbuf : String) (self' : Interp) (outp : String),
      1 ≤ self.tape.length → 0 ≤ self.ptr → self.ptr < (self.tape.length : Int) →
      run self program inbuf = .ok (self', outp) →
      0 ≤ self'.ptr ∧ self'.ptr < (self'.tape.length : Int))
    ∧ (∀ (prog : List Char) (bm : BMap) (inbuf : List Char) (st : St),
      st.tape.length = 1 → st.ptr = 0 → (execStep prog bm inbuf st).ptr = 0)
    ∧ (∀ (prog : List Char) (bm : BMap) (inbuf : List Char) (st : St),
      prog.getD st.ip ' ' = '>' → st.ptr = (st.tape.length : Int) - 1 →
      (execStep prog bm inbuf st).ptr = 0)
    ∧ (∀ (prog : List Char) (bm : BMap) (inbuf : List Char) (st : St),
      prog.getD st.ip ' ' = '<' → st.ptr = 0 →
      (execStep prog bm inbuf st).ptr = (st.tape.length : Int) - 1)
    ∧ (∀ (prog : List Char) (bm : BMap) (inbuf : List Char) (st : St),
      prog.getD st.ip ' ' = '>' → st.ptr + 1 < (st.tape.length : Int) →
      (execStep prog bm inbuf st).ptr = st.ptr + 1)
    ∧ (∀ (prog : List Char) (bm : BMap) (inbuf : List Char) (st : St),
      prog.getD st.ip ' ' = '<' → 0 < st.ptr →
      (execStep prog bm inbuf st).ptr = st.ptr - 1) := by
  have main : ∀ (prog : List Char) (bm : BMap) (inbuf : List Char) (st : St),
      1 ≤ st.tape.length → 0 ≤ st.ptr → st.ptr < (st.tape.length : Int) →
      0 ≤ (execStep prog bm inbuf st).ptr ∧
        (execStep prog bm inbuf st).ptr < ((execStep prog bm inbuf st).tape.length : Int) := by
    intro prog bm inbuf st h1 h2 h3
    simp only [execStep]
    split_ifs <;> simp [tapeWrite] <;> omega
  refine ⟨main, ?_, ?_, ?_, ?_, ?_, ?_⟩
  · intro self program inbuf self' outp h1 h2 h3 hrun
    simp only [run] at hrun
    split at hrun
    · exact absurd hrun (by simp)
    next bm hbm =>
      split at hrun
      · exact absurd hrun (by simp)
      next st hst' =>
        cases hrun
        have hinv := runLoop_ok_inv (sanitize program).data bm inbuf.data
          (fun st => 1 ≤ st.tape.length ∧ 0 ≤ st.ptr ∧ st.ptr < (st.tape.length : Int))
          (by
            intro st hst
            have hlen := execStep_tape_length (sanitize program).data bm inbuf.data st
            have hmain := main (sanitize program).data bm inbuf.data st hst.1 hst.2.1 hst.2.2
            exact ⟨by omega, hmain.1, hmain.2⟩)
          _ _ _ ⟨h1, h2, h3⟩ hst'
        exact ⟨hinv.2.1, hinv.2.2⟩
  · intro prog bm inbuf st h1 h0
    have h := main prog bm inbuf st (by omega) (by omega) (by rw [h1, h0]; norm_num)
    have hlen := execStep_tape_length prog bm inbuf st
    omega
  · intro prog bm inbuf st hc hedge
    simp only [execStep]
    rw [hc]
    simp
    omega
  · intro prog bm inbuf st hc hzero
    simp only [execStep]
    rw [hc]
    simp
    omega
  · intro prog bm inbuf st hc hin
    simp only [execStep]
    rw [hc]
    simp
    omega
  · intro prog bm inbuf st hc hpos
    simp only [execStep]
    rw [hc]
    simp
    omega

/-- C8 witness: the invariant applied to a `>` step at the right edge of a
2-cell tape, a full run of `"><"` on the 1-cell interpreter, a `<` step on a
1-cell tape, and the four movement rules applied on a 3-cell tape: `>` at 2
wraps to 0, `<` at 0 wraps to 2, `>` at 0 moves to 1, `<` at 2 moves to 1. -/
theorem c8_cursor_in_range_witness :
    (0 ≤ (execStep ['>'] bm0 [] ⟨[0, 0], 1, 0, 0, []⟩).ptr ∧
      (execStep ['>'] bm0 [] ⟨[0, 0], 1, 0, 0, []⟩).ptr <
        ((execStep ['>'] bm0 [] ⟨[0, 0], 1, 0, 0, []⟩).tape.length : Int))
    ∧ (0 ≤ i100.ptr ∧ i100.ptr < (i100.tape.length : Int))
    ∧ (execStep ['<'] bm0 [] ⟨[0], 0, 0, 0, []⟩).ptr = 0
    ∧ (execStep ['>'] bm0 [] ⟨[0, 0, 0], 2, 0, 0, []⟩).ptr = 0
    ∧ (execStep ['<'] bm0 [] ⟨[0, 0, 0], 0, 0, 0, []⟩).ptr =
        (((⟨[0, 0, 0], 0, 0, 0, []⟩ : St).tape.length : Int) - 1)
    ∧ (execStep ['>'] bm0 [] ⟨[0, 0, 0], 0, 0, 0, []⟩).ptr = 0 + 1
    ∧ (execStep ['<'] bm0 [] ⟨[0, 0, 0], 2, 0, 0, []⟩).ptr = 2 - 1 :=
  ⟨c8_cursor_in_range.1 ['>'] bm0 [] ⟨[0, 0], 1, 0, 0, []⟩ (by decide) (by decide) (by decide),
   c8_cursor_in_range.2.1 i100 "><" "" i100 "" (by decide) (by decide) (by decide) rfl,
   c8_cursor_in_range.2.2.1 ['<'] bm0 [] ⟨[0], 0, 0, 0, []⟩ rfl rfl,
   c8_cursor_in_range.2.2.2.1 ['>'] bm0 [] ⟨[0, 0, 0], 2, 0, 0, []⟩ rfl (by decide),
   c8_cursor_in_range.2.2.2.2.1 ['<'] bm0 [] ⟨[0, 0, 0], 0, 0, 0, []⟩ rfl rfl,
   c8_cursor_in_range.2.2.2.2.2.1 ['>'] bm0 [] ⟨[0, 0, 0], 0, 0, 0, []⟩ rfl (by decide),
   c8_cursor_in_range.2.2.2.2.2.2 ['<'] bm0 [] ⟨[0, 0, 0], 2, 0, 0, []⟩ rfl (by decide)⟩

/-- Helper: the element read by a guarded `getD` is a member of the list. -/
theorem getD_mem_of_lt {l : List Char} {i : Nat} (h : i < l.length) :
    l.getD i ' ' ∈ l := by
  rw [List.getD_eq_getElem _ _ h]
  exact List.getElem_mem h

set_option maxHeartbeats 3200000 in
/-- C6 (amended): every tape cell stays in `[0, 256)` throughout a run
provided every input character has code below 256 — a fresh interpreter's
cells are all 0, a dispatch step preserves the bound (`+`, `-` reduce mod
256, `,` writes the raw input character code or 0), and a successful run from
a bounded tape ends with a bounded tape.  Without the input restriction the
bound fails: `,` stores raw codes, which may reach 0x10FFFF. -/
theorem c6_cells_bounded :
    (∀ (tapeSize maxSteps : Int) (self : Interp),
      mkInterpreter tapeSize maxSteps = .ok self → ∀ v ∈ self.tape, v < 256)
    ∧ (∀ (prog : List Char) (bm : BMap) (inbuf : List Char) (st : St),
      (∀ v ∈ st.tape, v < 256) → (∀ c ∈ inbuf, c.toNat < 256) →
      ∀ v ∈ (execStep prog bm inbuf st).tape, v < 256)
    ∧ (∀ (self : Interp) (program inbuf : String) (self' : Interp) (outp : String),
      (∀ v ∈ self.tape, v < 256) → (∀ c ∈ inbuf.data, c.toNat < 256) →
      run self program inbuf = .ok (self', outp) → ∀ v ∈ self'.tape, v < 256) := by
  have hstep : ∀ (prog : List Char) (bm : BMap) (inbuf : List Char) (st : St),
      (∀ v ∈ st.tape, v < 256) → (∀ c ∈ inbuf, c.toNat < 256) →
      ∀ v ∈ (execStep prog bm inbuf st).tape, v < 256 := by
    intro prog bm inbuf st ht hin
    simp only [execStep]
    split_ifs with h1 h2 h3 h4 h5 h6 h7 h8 h9 h10 h11
    all_goals intro v hv
    all_goals
      first
      | exact ht v hv
      | exact tapeWrite_bound hv ht (Nat.mod_lt _ (by omega))
      | exact tapeWrite_bound hv ht (by omega)
      | exact tapeWrite_bound hv ht (hin _ (getD_mem_of_lt (by assumption)))
  refine ⟨?_, hstep, ?_⟩
  · intro tapeSize maxSteps self h v hv
    simp only [mkInterpreter] at h
    split at h
    · exact absurd h (by simp)
    · cases h
      have := (List.mem_replicate.mp hv).2
      omega
  · intro self program inbuf self' outp ht hin hrun
    simp only [run] at hrun
    split at hrun
    · exact absurd hrun (by simp)
    next bm hbm =>
      split at hrun
      · exact absurd hrun (by simp)
      next st hst' =>
        cases hrun
        exact runLoop_ok_inv (sanitize program).data bm inbuf.data
          (fun st => ∀ v ∈ st.tape, v < 256)
          (fun st hst => hstep (sanitize program).data bm inbuf.data st hst hin)
          _ _ _ ht hst'

/-- C6 witness: the bound applied to the fresh 1-cell interpreter, to a `+`
step on it, and to its full run of `"+"`. -/
theorem c6_cells_bounded_witness :
    (∀ v ∈ i100.tape, v < 256)
    ∧ (∀ v ∈ (execStep ['+'] bm0 [] ⟨[0], 0, 0, 0, []⟩).tape, v < 256)
    ∧ (∀ v ∈ i100'.tape, v < 256) :=
  ⟨c6_cells_bounded.1 1 100 i100 rfl,
   c6_cells_bounded.2.1 ['+'] bm0 [] ⟨[0], 0, 0, 0, []⟩ (by decide) (by decide),
   c6_cells_bounded.2.2 i100 "+" "" i100' "" (by decide) (by decide) rfl⟩

/-- C10 (amended): construction does not validate `max_steps` — any value,
including 0 and negatives, is accepted whenever `tape_size > 0`; a run with
`max_steps ≤ 0` fails with `stepLimitExceeded` before executing any
instruction whenever the sanitized program is non-empty AND its bracket map
builds successfully (a bracket error is raised first otherwise, as the
counterexample shows); and a program that sanitizes to the empty sequence
returns the empty output unchanged, whatever `max_steps` is. -/
theorem c10_no_maxsteps_validation :
    (∀ (tapeSize maxSteps : Int), 0 < tapeSize →
      mkInterpreter tapeSize maxSteps = .ok ⟨List.replicate tapeSize.toNat 0, 0, maxSteps⟩)
    ∧ (∀ (self : Interp) (program inbuf : String) (bm : BMap),
      self.maxSteps ≤ 0 → sanitize program ≠ "" →
      buildBracketMap (sanitize program) = .ok bm →
      run self program inbuf = .error .stepLimitExceeded)
    ∧ (∀ (self : Interp) (program inbuf : String),
      sanitize program = "" → run self program inbuf = .ok (self, "")) := by
  refine ⟨?_, ?_, ?_⟩
  · intro tapeSize maxSteps h
    simp only [mkInterpreter]
    rw [if_neg (by omega)]
  · intro self program inbuf bm hms hne hbm
    have hlen : 0 < (sanitize program).data.length := by
      cases hd : (sanitize program).data with
      | nil =>
        exfalso
        apply hne
        have : sanitize program = ⟨[]⟩ := by rw [← hd]
        exact this
      | cons c tl => simp
    simp only [run]
    rw [hbm, Int.toNat_of_nonpos hms]
    simp only [runLoop]
    rw [if_pos hlen]
  · intro self program inbuf h
    have hbm : buildBracketMap (sanitize program) = .ok bm0 := by rw [h]; rfl
    simp only [run]
    rw [hbm, h]
    cases hn : self.maxSteps.toNat with
    | zero => rfl
    | succ n => rfl

/-- C10 witness: construction with `max_steps = -5` succeeds; on such an
interpreter the bracket-free program `"+"` hits the step limit at once; and a
program sanitizing to nothing returns the empty output. -/
theorem c10_no_maxsteps_validation_witness :
    mkInterpreter 1 (-5) = .ok ⟨List.replicate (1 : Int).toNat 0, 0, -5⟩
    ∧ run ⟨[0], 0, -5⟩ "+" "" = .error .stepLimitExceeded
    ∧ run i100 "abc" "" = .ok (i100, "") :=
  ⟨c10_no_maxsteps_validation.1 1 (-5) (by decide),
   c10_no_maxsteps_validation.2.1 ⟨[0], 0, -5⟩ "+" "" bm0 (by decide) (by decide) rfl,
   c10_no_maxsteps_validation.2.2 i100 "abc" "" (by decide)⟩

/-- Helper: the scan invariant of `build_bracket_map` — processing the
remainder of the program starting at `pos` with a stack of still-open `[`
positions below `pos` and a partial map that is symmetric and keyed exactly
by the already-matched bracket positions yields, on success, a map keyed
exactly by all bracket positions of the program and symmetric. -/
theorem bmLoop_invariant (full : List Char) :
    ∀ (l : List Char) (pos : Nat) (stack : List Nat) (m mfin : BMap),
    full.drop pos = l →
    (∀ x ∈ stack, x < pos ∧ full[x]? = some '[') →
    stack.Nodup →
    (∀ k, (m k).isSome = true ↔
      ((full[k]? = some '[' ∨ full[k]? = some ']') ∧ k < pos ∧ k ∉ stack)) →
    (∀ a b, m a = some b → m b = some a) →
    bmLoop l pos stack m = .ok mfin →
    (∀ k, (mfin k).isSome = true ↔ (full[k]? = some '[' ∨ full[k]? = some ']')) ∧
    (∀ a b, mfin a = some b → mfin b = some a) := by
  intro l
  induction l with
  | nil =>
    intro pos stack m mfin hdrop hstack hnd hK hS hrun
    cases stack with
    | nil =>
      simp only [bmLoop] at hrun
      cases hrun
      have hle : full.length ≤ pos := List.drop_eq_nil_iff.mp hdrop
      constructor
      · intro k
        rw [hK k]
        constructor
        · exact fun h => h.1
        · intro hb
          have hk : k < full.length := by
            rcases hb with hb | hb
            · exact (List.getElem?_eq_some_iff.mp hb).1
            · exact (List.getElem?_eq_some_iff.mp hb).1
          exact ⟨hb, by omega, by simp⟩
      · exact hS
    | cons p s =>
      simp only [bmLoop] at hrun
      exact absurd hrun (by simp)
  | cons c rest ih =>
    intro pos stack m mfin hdrop hstack hnd hK hS hrun
    have hgetc : full[pos]? = some c := by
      have h0 : (full.drop pos)[0]? = some c := by rw [hdrop]; simp
      rwa [List.getElem?_drop, Nat.add_zero] at h0
    have hdrop' : full.drop (pos + 1) = rest := by
      have h1 : (full.drop pos).drop 1 = full.drop (pos + 1) := List.drop_drop 1 pos full
      rw [← h1, hdrop]
      simp
    by_cases hc1 : c = '['
    · subst hc1
      simp only [bmLoop, reduceIte] at hrun
      refine ih (pos + 1) (pos :: stack) m mfin hdrop' ?_ ?_ ?_ hS hrun
      · intro x hx
        rcases List.mem_cons.mp hx with rfl | hx
        · exact ⟨Nat.lt_succ_self _, hgetc⟩
        · have h := hstack x hx
          exact ⟨by omega, h.2⟩
      · refine List.nodup_cons.mpr ⟨?_, hnd⟩
        intro hmem
        have := (hstack pos hmem).1
        omega
      · intro k
        rw [hK k]
        constructor
        · rintro ⟨hb, hlt, hnot⟩
          refine ⟨hb, by omega, ?_⟩
          intro hmem
          rcases List.mem_cons.mp hmem with rfl | hmem
          · omega
          · exact hnot hmem
        · rintro ⟨hb, hlt, hnot⟩
          have hkpos : k ≠ pos := fun h => hnot (h ▸ List.mem_cons_self pos stack)
          exact ⟨hb, by omega, fun hmem => hnot (List.mem_cons_of_mem _ hmem)⟩
    · by_cases hc2 : c = ']'
      · subst hc2
        cases stack with
        | nil =>
          simp only [bmLoop, if_neg hc1, reduceIte] at hrun
          exact absurd hrun (by simp)
        | cons start tl =>
          simp only [bmLoop, if_neg hc1, reduceIte] at hrun
          obtain ⟨hstartlt, hstartch⟩ := hstack start (List.mem_cons_self _ _)
          have hmstart : m start = none := by
            cases hms : m start with
            | none => rfl
            | some q =>
              have hsome : (m start).isSome = true := by rw [hms]; rfl
              have h2 := (hK start).mp hsome
              exact absurd (List.mem_cons_self start tl) h2.2.2
          have hmpos : m pos = none := by
            cases hms : m pos with
            | none => rfl
            | some q =>
              have hsome : (m pos).isSome = true := by rw [hms]; rfl
              have h2 := (hK pos).mp hsome
              omega
          have hstartne : start ≠ pos := by omega
          have hstartnotintl : start ∉ tl := (List.nodup_cons.mp hnd).1
          refine ih (pos + 1) tl _ mfin hdrop' ?_ (List.nodup_cons.mp hnd).2 ?_ ?_ hrun
          · intro x hx
            have h := hstack x (List.mem_cons_of_mem _ hx)
            exact ⟨by omega, h.2⟩
          · intro k
            simp only [mapInsert]
            by_cases hk1 : k = pos
            · subst hk1
              rw [if_pos rfl]
              refine iff_of_true rfl ⟨Or.inr hgetc, by omega, ?_⟩
              intro hmem
              have := (hstack _ (List.mem_cons_of_mem _ hmem)).1
              omega
            · by_cases hk2 : k = start
              · subst hk2
                rw [if_neg hstartne, if_pos rfl]
                refine iff_of_true rfl ⟨Or.inl hstartch, by omega, hstartnotintl⟩
              · simp only [if_neg hk1, if_neg hk2]
                rw [hK k]
                constructor
                · rintro ⟨hb, hlt, hnot⟩
                  exact ⟨hb, by omega, fun hm => hnot (List.mem_cons_of_mem _ hm)⟩
                · rintro ⟨hb, hlt, hnot⟩
                  refine ⟨hb, by omega, ?_⟩
                  intro hm
                  rcases List.mem_cons.mp hm with h | h
                  · exact hk2 h
                  · exact hnot h
          · intro a b hab
            simp only [mapInsert] at hab ⊢
            by_cases ha1 : a = pos
            · subst ha1
              rw [if_pos rfl] at hab
              injection hab with h
              subst h
              simp [hstartne]
            · by_cases ha2 : a = start
              · subst ha2
                rw [if_neg hstartne, if_pos rfl] at hab
                injection hab with h
                subst h
                simp
              · rw [if_neg ha1, if_neg ha2] at hab
                have hba := hS a b hab
                have hbpos : b ≠ pos := by
                  intro h
                  subst h
                  rw [hmpos] at hba
                  exact absurd hba (by simp)
                have hbstart : b ≠ start := by
                  intro h
                  subst h
                  rw [hmstart] at hba
                  exact absurd hba (by simp)
                rw [if_neg hbpos, if_neg hbstart]
                exact hba
      · simp only [bmLoop, if_neg hc1, if_neg hc2] at hrun
        refine ih (pos + 1) stack m mfin hdrop' ?_ hnd ?_ hS hrun
        · intro x hx
          have h := hstack x hx
          exact ⟨by omega, h.2⟩
        · intro k
          rw [hK k]
          constructor
          · rintro ⟨hb, hlt, hnot⟩
            exact ⟨hb, by omega, hnot⟩
          · rintro ⟨hb, hlt, hnot⟩
            have hkpos : k ≠ pos := by
              intro h
              subst h
              rw [hgetc] at hb
              rcases hb with hb | hb
              · exact hc1 (Option.some.inj hb)
              · exact hc2 (Option.some.inj hb)
            exact ⟨hb, by omega, hnot⟩

/-- C5: for every program on which the Bracket Matcher succeeds, the
resulting map's keys are exactly the positions of `[` and `]` characters of
the program (a position is a key iff it holds a bracket, hence each exactly
once and no other positions), and the map is symmetric: `map[p] = q` implies
`map[q] = p`. -/
theorem c5_bracket_map_keys_symm (program : String) (m : BMap)
    (h : buildBracketMap program = .ok m) :
    (∀ k, (m k).isSome = true ↔
      (program.data[k]? = some '[' ∨ program.data[k]? = some ']'))
    ∧ (∀ a b, m a = some b → m b = some a) := by
  refine bmLoop_invariant program.data program.data 0 [] (fun _ => none) m rfl ?_ ?_ ?_ ?_ h
  · intro x hx
    exact absurd hx (List.not_mem_nil x)
  · exact List.nodup_nil
  · intro k
    simp
  · intro a b hab
    exact absurd hab (by simp)

/-- C5 witness: the guarantee applied to the program `"[]"` and its concrete
map. -/
theorem c5_bracket_map_keys_symm_witness :
    (c5map 0).isSome = true ∧ c5map 1 = some 0 :=
  ⟨((c5_bracket_map_keys_symm "[]" c5map rfl).1 0).mpr (Or.inl (by decide)),
   (c5_bracket_map_keys_symm "[]" c5map rfl).2 0 1 rfl⟩
